import Mathlib

/-!
Verification of the dependency-graph serialization core
(`compiler/rustc_query_system/src/dep_graph/serialized.rs`).

The development shallowly embeds the data model and the operations of the
file: the `SerializedDepGraph` containers and `edge_targets_from`, the
decoder loop of `Decodable::decode`, the synchronous `GraphEncoder`
(`send` / `finish` / `encode_counts`), and the concurrent ordering stage
(`ordered_recv` / `encode_graph`).  The byte-level codec
(`rustc_serialize::opaque`) is not part of this file's source; following
the documented layout, the stream is modelled as a list of codec tokens:
one token per descriptor, per fingerprint, per sequence-length prefix,
per edge element, and per fixed-width trailer integer.
-/

/-- Modelled from the spec: a node descriptor (`DepNode<K>`), a
domain-specific kind tag plus an opaque key; the descriptor type itself
lives outside this file and is treated as an opaque serializable value. -/
structure DepNode (K : Type) where
  kind : K
  hash : Nat
  deriving DecidableEq, Repr

/-- Modelled from the spec: a fingerprint, an opaque fixed-width content
hash (`Fingerprint(u64, u64)` lives outside this file). -/
structure Fingerprint where
  lo : Nat
  hi : Nat
  deriving DecidableEq, Repr

/-- One record submitted for encoding: descriptor, fingerprint, edges
(`NodeInfo<K>` in the source; the small-vector is modelled as a list). -/
structure NodeInfo (K : Type) where
  node : DepNode K
  fingerprint : Fingerprint
  edges : List Nat
  deriving DecidableEq, Repr

/-- The four parallel containers of `SerializedDepGraph<K>`.  Index
vectors are lists, `SerializedDepNodeIndex` is a natural number. -/
structure SerializedDepGraph (K : Type) where
  nodes : List (DepNode K)
  fingerprints : List Fingerprint
  edge_list_indices : List (Nat × Nat)
  edge_list_data : List Nat
  deriving DecidableEq, Repr

/-- The empty graph (`SerializedDepGraph::default`). -/
def SerializedDepGraph.empty (K : Type) : SerializedDepGraph K :=
  ⟨[], [], [], []⟩

/-- `edge_targets_from`: the slice of `edge_list_data` between the
offsets stored in `edge_list_indices` at `source`. -/
def edge_targets_from {K : Type} (g : SerializedDepGraph K) (source : Nat) : List Nat :=
  let targets := g.edge_list_indices.getD source (0, 0)
  (g.edge_list_data.drop targets.1).take (targets.2 - targets.1)

/-- Modelled from the spec: one token of the binary codec
(`rustc_serialize::opaque` is outside this file).  Each record is written
as descriptor, fingerprint, then a length-prefixed sequence of edge
indices; the trailer is two fixed-width integers
(`IntEncodedWithFixedSize`). -/
inductive EncTok (K : Type) where
  | node (n : DepNode K)
  | fp (f : Fingerprint)
  | seqLen (l : Nat)
  | seqElt (i : Nat)
  | fixedInt (v : Nat)
  deriving DecidableEq, Repr

/-- Modelled from the spec: the derived `Encodable` instance of
`NodeInfo` writes the descriptor, the fingerprint, then the
length-prefixed edge sequence. -/
def encodeNodeInfo {K : Type} (r : NodeInfo K) : List (EncTok K) :=
  EncTok.node r.node :: EncTok.fp r.fingerprint ::
    EncTok.seqLen r.edges.length :: r.edges.map EncTok.seqElt

/-- Token stream of a list of records, in order. -/
def encodeList {K : Type} : List (NodeInfo K) → List (EncTok K)
  | [] => []
  | r :: rs => encodeNodeInfo r ++ encodeList rs

/-- `encode_counts`: the trailer, node count then edge count, each one
fixed-width integer. -/
def encode_counts {K : Type} (node_count edge_count : Nat) : List (EncTok K) :=
  [EncTok.fixedInt node_count, EncTok.fixedInt edge_count]

/-- Total number of edges of a record list. -/
def sumEdges {K : Type} : List (NodeInfo K) → Nat
  | [] => 0
  | r :: rs => r.edges.length + sumEdges rs

/-- Concatenation of all edge lists of a record list, in order. -/
def edgesJoin {K : Type} : List (NodeInfo K) → List Nat
  | [] => []
  | r :: rs => r.edges ++ edgesJoin rs

/-! ## Decoder -/

/-- The trailer read of `decode`: position to
`len - 2 * ENCODED_SIZE` and read the two fixed-width integers
(node count, then edge count). -/
def decodeTrailer {K : Type} (data : List (EncTok K)) : Option (Nat × Nat) :=
  match data.drop (data.length - 2) with
  | [EncTok.fixedInt n, EncTok.fixedInt e] => some (n, e)
  | _ => none

/-- The `read_seq` loop of `decode`: read `n` edge elements, returning
them with the rest of the stream. -/
def readEdges {K : Type} : Nat → List (EncTok K) → Option (List Nat × List (EncTok K))
  | 0, rest => some ([], rest)
  | n + 1, EncTok.seqElt i :: rest =>
    match readEdges n rest with
    | none => none
    | some (es, rest') => some (i :: es, rest')
  | _ + 1, _ => none

/-- The record loop of `decode`: read `n` records, pushing the node and
fingerprint, appending the edges onto the flat edge array, and recording
the `(start, end)` offset pair of each record. -/
def decodeRecords {K : Type} :
    Nat → List (EncTok K) → SerializedDepGraph K → Option (SerializedDepGraph K)
  | 0, _, g => some g
  | n + 1, EncTok.node nd :: EncTok.fp f :: EncTok.seqLen l :: rest, g =>
    match readEdges l rest with
    | none => none
    | some (es, rest') =>
      decodeRecords n rest'
        ⟨g.nodes ++ [nd], g.fingerprints ++ [f],
         g.edge_list_indices ++ [(g.edge_list_data.length, g.edge_list_data.length + es.length)],
         g.edge_list_data ++ es⟩
  | _ + 1, _, _ => none

/-- `SerializedDepGraph::decode`: read the trailer at the end of the
stream, return to the start, and decode exactly `node_count` records. -/
def decode {K : Type} (data : List (EncTok K)) : Option (SerializedDepGraph K) :=
  match decodeTrailer data with
  | none => none
  | some (node_count, _edge_count) =>
    decodeRecords node_count data (SerializedDepGraph.empty K)

/-- The graph built by pushing a list of records in order, exactly as the
decode loop pushes them. -/
def buildGraph {K : Type} (g : SerializedDepGraph K) : List (NodeInfo K) → SerializedDepGraph K
  | [] => g
  | r :: rs =>
    buildGraph
      ⟨g.nodes ++ [r.node], g.fingerprints ++ [r.fingerprint],
       g.edge_list_indices ++ [(g.edge_list_data.length, g.edge_list_data.length + r.edges.length)],
       g.edge_list_data ++ r.edges⟩ rs

/-- The offset pairs `(start, end)` produced for a record list whose flat
edge array starts at offset `s`. -/
def edgeOffsets {K : Type} (s : Nat) : List (NodeInfo K) → List (Nat × Nat)
  | [] => []
  | r :: rs => (s, s + r.edges.length) :: edgeOffsets (s + r.edges.length) rs

theorem edgesJoin_length {K : Type} (rs : List (NodeInfo K)) :
    (edgesJoin rs).length = sumEdges rs := by
  induction rs with
  | nil => rfl
  | cons r rs ih => simp [edgesJoin, sumEdges, ih]

theorem edgeOffsets_length {K : Type} (s : Nat) (rs : List (NodeInfo K)) :
    (edgeOffsets s rs).length = rs.length := by
  induction rs generalizing s with
  | nil => rfl
  | cons r rs ih => simp [edgeOffsets, ih]

theorem buildGraph_spec {K : Type} (rs : List (NodeInfo K)) (g : SerializedDepGraph K) :
    buildGraph g rs =
      ⟨g.nodes ++ rs.map NodeInfo.node,
       g.fingerprints ++ rs.map NodeInfo.fingerprint,
       g.edge_list_indices ++ edgeOffsets g.edge_list_data.length rs,
       g.edge_list_data ++ edgesJoin rs⟩ := by
  induction rs generalizing g with
  | nil => simp [buildGraph, edgeOffsets, edgesJoin]
  | cons r rs ih =>
    simp only [buildGraph, ih, edgeOffsets, edgesJoin]
    simp

/-! ## Synchronous graph encoder -/

/-- `FileEncodeResult`: success, or the first I/O error (modelled by a
numeric code). -/
inductive FileEncodeResult where
  | ok
  | err (e : Nat)
  deriving DecidableEq, Repr

/-- The state guarded by the `status` lock of the synchronous
`GraphEncoder`, together with the atomic `counter`.  `attempts` records
the indices for which `encode_node` was actually invoked (the
`and_then` closure ran). -/
structure EncoderState (K : Type) where
  stream : List (EncTok K)
  edge_count : Nat
  result : FileEncodeResult
  counter : Nat
  attempts : List Nat
  deriving DecidableEq, Repr

/-- The state of a freshly constructed `GraphEncoder`. -/
def initState (K : Type) : EncoderState K :=
  ⟨[], 0, .ok, 0, []⟩

/-- `GraphEncoder::send` (synchronous mode), against a sink that fails
the write of record `i` with error `e` when `fault i = some e`.  The
atomic counter assigns the index; `edge_count` grows unconditionally;
the stored result is `and_then`-chained, so `encode_node` runs only when
no earlier write failed.  Returns the new state and the index handed
back to the caller. -/
def send {K : Type} (fault : Nat → Option Nat) (st : EncoderState K)
    (node : DepNode K) (fingerprint : Fingerprint) (edges : List Nat) :
    EncoderState K × Nat :=
  let index := st.counter
  let edge_count := st.edge_count + edges.length
  match st.result with
  | .err e => (⟨st.stream, edge_count, .err e, index + 1, st.attempts⟩, index)
  | .ok =>
    match fault index with
    | some e => (⟨st.stream, edge_count, .err e, index + 1, st.attempts ++ [index]⟩, index)
    | none =>
      (⟨st.stream ++ encodeNodeInfo ⟨node, fingerprint, edges⟩, edge_count, .ok,
        index + 1, st.attempts ++ [index]⟩, index)

/-- `GraphEncoder::finish`: surface a recorded failure without touching
the sink; otherwise append the trailer.  Returns the result together
with the final content of the sink. -/
def finish {K : Type} (st : EncoderState K) : FileEncodeResult × List (EncTok K) :=
  match st.result with
  | .err e => (.err e, st.stream)
  | .ok => (.ok, st.stream ++ encode_counts st.counter st.edge_count)

/-- A whole session: one `send` per record, in order; returns the final
state and the list of indices returned by the `send` calls. -/
def runSends {K : Type} (fault : Nat → Option Nat) (st : EncoderState K) :
    List (NodeInfo K) → EncoderState K × List Nat
  | [] => (st, [])
  | r :: rs =>
    let p := send fault st r.node r.fingerprint r.edges
    let q := runSends fault p.1 rs
    (q.1, p.2 :: q.2)

/-- The fault-free sink. -/
def noFault : Nat → Option Nat := fun _ => none

/-- The error of the first faulty record among `n` records starting at
index `start`, if any. -/
def firstFaultIn (fault : Nat → Option Nat) (start : Nat) : Nat → Option Nat
  | 0 => none
  | n + 1 =>
    match fault start with
    | some e => some e
    | none => firstFaultIn fault (start + 1) n

/-- The file produced by a complete fault-free session over `rs`. -/
def encodeFile {K : Type} (rs : List (NodeInfo K)) : List (EncTok K) :=
  (finish (runSends noFault (initState K) rs).1).2

theorem runSends_err {K : Type} (fault : Nat → Option Nat) (rs : List (NodeInfo K))
    (st : EncoderState K) (e : Nat) (h : st.result = .err e) :
    (runSends fault st rs).1.stream = st.stream ∧
    (runSends fault st rs).1.result = .err e ∧
    (runSends fault st rs).1.attempts = st.attempts ∧
    (runSends fault st rs).1.counter = st.counter + rs.length ∧
    (runSends fault st rs).2 = List.range' st.counter rs.length := by
  induction rs generalizing st with
  | nil => simpa [runSends] using h.symm ▸ rfl
  | cons r rs ih =>
    simp only [runSends, send, h]
    have := ih ⟨st.stream, st.edge_count + r.edges.length, .err e, st.counter + 1, st.attempts⟩ rfl
    simp only at this
    refine ⟨this.1, this.2.1, this.2.2.1, ?_, ?_⟩
    · simp [this.2.2.2.1]; omega
    · simp [this.2.2.2.2, List.range'_succ]

theorem runSends_ok {K : Type} (fault : Nat → Option Nat) (rs : List (NodeInfo K))
    (st : EncoderState K) (h : st.result = .ok)
    (hf : firstFaultIn fault st.counter rs.length = none) :
    runSends fault st rs =
      (⟨st.stream ++ encodeList rs, st.edge_count + sumEdges rs, .ok,
        st.counter + rs.length, st.attempts ++ List.range' st.counter rs.length⟩,
       List.range' st.counter rs.length) := by
  induction rs generalizing st with
  | nil =>
    simp only [runSends, List.range', encodeList, sumEdges]
    cases st with
    | mk s ec res c at_ => simp_all
  | cons r rs ih =>
    have hnone : fault st.counter = none := by
      revert hf
      simp only [List.length_cons, firstFaultIn]
      cases fault st.counter <;> simp
    have hrest : firstFaultIn fault (st.counter + 1) rs.length = none := by
      revert hf
      simp only [List.length_cons, firstFaultIn, hnone]
      exact id
    simp only [runSends, send, h, hnone]
    rw [ih _ rfl hrest]
    simp only [encodeList, sumEdges, List.length_cons, List.range'_succ, Prod.mk.injEq,
      EncoderState.mk.injEq]
    refine ⟨⟨?_, ?_, ?_, ?_, ?_⟩, ?_⟩ <;>
      first
        | rfl
        | trivial
        | omega
        | simp [encodeNodeInfo]

theorem readEdges_encode {K : Type} (es : List Nat) (rest : List (EncTok K)) :
    readEdges es.length (es.map EncTok.seqElt ++ rest) = some (es, rest) := by
  induction es with
  | nil => rfl
  | cons i es ih => simp [readEdges, ih]

theorem decodeRecords_encodeList {K : Type} (rs : List (NodeInfo K))
    (suffix : List (EncTok K)) (g : SerializedDepGraph K) :
    decodeRecords rs.length (encodeList rs ++ suffix) g = some (buildGraph g rs) := by
  induction rs generalizing g with
  | nil => rfl
  | cons r rs ih =>
    have harr : encodeList (r :: rs) ++ suffix =
        EncTok.node r.node :: EncTok.fp r.fingerprint :: EncTok.seqLen r.edges.length ::
          (r.edges.map EncTok.seqElt ++ (encodeList rs ++ suffix)) := by
      simp [encodeList, encodeNodeInfo]
    rw [List.length_cons, harr]
    simp only [decodeRecords, readEdges_encode, buildGraph]
    exact ih _

theorem firstFaultIn_noFault (s n : Nat) : firstFaultIn noFault s n = none := by
  induction n generalizing s with
  | zero => rfl
  | succ n ih => simp [firstFaultIn, noFault, ih]

theorem encodeFile_eq {K : Type} (rs : List (NodeInfo K)) :
    encodeFile rs = encodeList rs ++ encode_counts rs.length (sumEdges rs) := by
  unfold encodeFile
  rw [runSends_ok noFault rs (initState K) rfl (by simpa using firstFaultIn_noFault 0 rs.length)]
  simp [finish, initState]

theorem decodeTrailer_append_counts {K : Type} (xs : List (EncTok K)) (nc ec : Nat) :
    decodeTrailer (xs ++ encode_counts nc ec) = some (nc, ec) := by
  unfold decodeTrailer encode_counts
  have hlen : (xs ++ [EncTok.fixedInt (K := K) nc, EncTok.fixedInt ec]).length - 2 = xs.length := by
    simp
  rw [hlen, List.drop_left]

theorem decode_encodeFile {K : Type} (rs : List (NodeInfo K)) :
    decode (encodeFile rs) = some (buildGraph (SerializedDepGraph.empty K) rs) := by
  rw [encodeFile_eq]
  unfold decode
  rw [decodeTrailer_append_counts]
  exact decodeRecords_encodeList rs _ _

theorem sumEdges_take_succ {K : Type} (rs : List (NodeInfo K)) (i : Nat) (h : i < rs.length) :
    sumEdges (rs.take (i + 1)) = sumEdges (rs.take i) + ((rs.get ⟨i, h⟩).edges).length := by
  induction rs generalizing i with
  | nil => exact absurd h (by simp)
  | cons r rs ih =>
    cases i with
    | zero => simp [sumEdges, List.take]
    | succ i =>
      have h' : i < rs.length := by simpa using h
      simp only [List.take_succ_cons, sumEdges, List.get, ih i h']
      omega

theorem edgeOffsets_getD {K : Type} (rs : List (NodeInfo K)) (s i : Nat) (h : i < rs.length) :
    (edgeOffsets s rs).getD i (0, 0) =
      (s + sumEdges (rs.take i), s + sumEdges (rs.take (i + 1))) := by
  induction rs generalizing s i with
  | nil => exact absurd h (by simp)
  | cons r rs ih =>
    cases i with
    | zero => simp [edgeOffsets, sumEdges, List.take]
    | succ i =>
      have h' : i < rs.length := by simpa using h
      simp only [edgeOffsets, List.getD_cons_succ, ih _ i h', List.take_succ_cons, sumEdges,
        Prod.mk.injEq]
      constructor <;> omega

theorem drop_take_edgesJoin {K : Type} (rs : List (NodeInfo K)) (pre : List Nat) (i : Nat)
    (h : i < rs.length) :
    ((pre ++ edgesJoin rs).drop (pre.length + sumEdges (rs.take i))).take
        ((rs.get ⟨i, h⟩).edges).length = (rs.get ⟨i, h⟩).edges := by
  induction rs generalizing pre i with
  | nil => exact absurd h (by simp)
  | cons r rs ih =>
    cases i with
    | zero =>
      simp only [List.take_zero, sumEdges, Nat.add_zero, List.get, edgesJoin]
      rw [List.drop_left pre (r.edges ++ edgesJoin rs), List.take_left]
    | succ i =>
      have h' : i < rs.length := by simpa using h
      simp only [List.take_succ_cons, sumEdges, List.get, edgesJoin]
      rw [← List.append_assoc,
        show pre.length + (r.edges.length + sumEdges (rs.take i)) =
            (pre ++ r.edges).length + sumEdges (rs.take i) by
          simp only [List.length_append]; omega]
      exact ih (pre ++ r.edges) i h'

theorem edge_targets_buildGraph {K : Type} (rs : List (NodeInfo K)) (i : Nat) (h : i < rs.length) :
    edge_targets_from (buildGraph (SerializedDepGraph.empty K) rs) i = (rs.get ⟨i, h⟩).edges := by
  rw [buildGraph_spec]
  unfold edge_targets_from
  simp only [SerializedDepGraph.empty, List.nil_append, List.length_nil]
  rw [edgeOffsets_getD rs 0 i h]
  simp only [Nat.zero_add]
  rw [sumEdges_take_succ rs i h, Nat.add_sub_cancel_left]
  have := drop_take_edgesJoin rs [] i h
  simpa using this

theorem decodeRecords_inv {K : Type} :
    ∀ (n : Nat) (toks : List (EncTok K)) (g g' : SerializedDepGraph K),
      decodeRecords n toks g = some g' →
      ∃ rs : List (NodeInfo K), rs.length = n ∧ g' = buildGraph g rs := by
  intro n
  induction n with
  | zero =>
    intro toks g g' hdec
    exact ⟨[], rfl, by simpa [decodeRecords, buildGraph] using hdec.symm⟩
  | succ n ih =>
    intro toks g g' hdec
    rcases toks with _ | ⟨⟨nd⟩ | ⟨f1⟩ | ⟨l1⟩ | ⟨i1⟩ | ⟨v1⟩, toks⟩
    all_goals try (simp [decodeRecords] at hdec)
    rcases toks with _ | ⟨⟨nd2⟩ | ⟨f⟩ | ⟨l2⟩ | ⟨i2⟩ | ⟨v2⟩, toks⟩
    all_goals try (simp [decodeRecords] at hdec)
    rcases toks with _ | ⟨⟨nd3⟩ | ⟨f3⟩ | ⟨l⟩ | ⟨i3⟩ | ⟨v3⟩, toks⟩
    all_goals try (simp [decodeRecords] at hdec)
    cases hre : readEdges l toks with
    | none => rw [hre] at hdec; simp at hdec
    | some p =>
      rcases p with ⟨es, rest'⟩
      rw [hre] at hdec
      simp only at hdec
      obtain ⟨rs, hlen, hg⟩ := ih rest' _ g' hdec
      refine ⟨⟨nd, f, es⟩ :: rs, by simp [hlen], ?_⟩
      rw [hg]
      rfl

/-- A token of a record body: anything but a fixed-width trailer
integer. -/
def recTok {K : Type} : EncTok K → Prop := fun t => ∀ v, t ≠ EncTok.fixedInt v

theorem recTok_encodeList {K : Type} (rs : List (NodeInfo K)) :
    ∀ t ∈ encodeList rs, recTok t := by
  induction rs with
  | nil => intro t ht; simp [encodeList] at ht
  | cons r rs ih =>
    intro t ht
    simp only [encodeList, List.mem_append] at ht
    rcases ht with ht | ht
    · simp only [encodeNodeInfo, List.mem_cons] at ht
      rcases ht with rfl | rfl | rfl | ht
      · intro v; simp
      · intro v; simp
      · intro v; simp
      · rcases List.mem_map.mp ht with ⟨i, _, rfl⟩
        intro v; simp
    · exact ih t ht

theorem decodeTrailer_of_recToks {K : Type} (data : List (EncTok K))
    (h : ∀ t ∈ data, recTok t) : decodeTrailer data = none := by
  unfold decodeTrailer
  split
  · rename_i n e heq
    have hmem : EncTok.fixedInt (K := K) n ∈ data.drop (data.length - 2) := by
      rw [heq]; exact List.mem_cons_self _ _
    exact absurd rfl (h _ (List.mem_of_mem_drop hmem) n)
  · rfl

theorem runSends_stream_recToks {K : Type} (fault : Nat → Option Nat)
    (rs : List (NodeInfo K)) (st : EncoderState K) (h : ∀ t ∈ st.stream, recTok t) :
    ∀ t ∈ (runSends fault st rs).1.stream, recTok t := by
  induction rs generalizing st with
  | nil => simpa [runSends] using h
  | cons r rs ih =>
    simp only [runSends]
    apply ih
    cases hres : st.result with
    | err e => simpa [send, hres] using h
    | ok =>
      cases hflt : fault st.counter with
      | some e => simpa [send, hres, hflt] using h
      | none =>
        simp only [send, hres, hflt]
        intro t ht
        simp only [List.mem_append] at ht
        rcases ht with ht | ht
        · exact h t ht
        · exact recTok_encodeList [⟨r.node, r.fingerprint, r.edges⟩] t
            (by simpa [encodeList] using ht)

theorem send_counter {K : Type} (fault : Nat → Option Nat) (st : EncoderState K)
    (nd : DepNode K) (fpr : Fingerprint) (edges : List Nat) :
    (send fault st nd fpr edges).1.counter = st.counter + 1 ∧
    (send fault st nd fpr edges).2 = st.counter := by
  unfold send
  cases st.result with
  | err e => simp
  | ok =>
    cases hflt : fault st.counter with
    | some e => simp [hflt]
    | none => simp [hflt]

theorem runSends_indices {K : Type} (fault : Nat → Option Nat) (rs : List (NodeInfo K)) :
    ∀ st : EncoderState K,
      (runSends fault st rs).1.counter = st.counter + rs.length ∧
      (runSends fault st rs).2 = List.range' st.counter rs.length := by
  induction rs with
  | nil => intro st; simp [runSends, List.range']
  | cons r rs ih =>
    intro st
    simp only [runSends]
    obtain ⟨hc, hi⟩ := send_counter fault st r.node r.fingerprint r.edges
    obtain ⟨hc', hi'⟩ := ih (send fault st r.node r.fingerprint r.edges).1
    rw [hc', hi', hc, hi]
    constructor
    · simp; omega
    · simp [List.range'_succ]

theorem runSends_result {K : Type} (fault : Nat → Option Nat) (rs : List (NodeInfo K)) :
    ∀ st : EncoderState K, st.result = .ok →
      (runSends fault st rs).1.result =
        match firstFaultIn fault st.counter rs.length with
        | some e => .err e
        | none => .ok := by
  induction rs with
  | nil =>
    intro st h
    simpa [runSends, firstFaultIn] using h
  | cons r rs ih =>
    intro st h
    simp only [runSends, List.length_cons, firstFaultIn]
    cases hflt : fault st.counter with
    | some e =>
      simp only [send, h, hflt]
      have := runSends_err fault rs
        ⟨st.stream, st.edge_count + r.edges.length, .err e, st.counter + 1, st.attempts ++ [st.counter]⟩
        e rfl
      simpa using this.2.1
    | none =>
      simp only [send, h, hflt]
      have := ih ⟨st.stream ++ encodeNodeInfo ⟨r.node, r.fingerprint, r.edges⟩,
        st.edge_count + r.edges.length, .ok, st.counter + 1, st.attempts ++ [st.counter]⟩ rfl
      simpa using this

/-! ## Ordering stage (concurrent mode) -/

/-- The state of `ordered_recv`: the buffer of early arrivals, the next
index to flush, and the sequence of records handed to the write
callback so far. -/
structure OrdState (K : Type) where
  pending : List (Nat × NodeInfo K)
  expected : Nat
  log : List (Nat × NodeInfo K)
  deriving DecidableEq, Repr

/-- One insertion step of the sort of `pending` by index
(`sort_by_key`). -/
def insertPending {K : Type} (a : Nat × NodeInfo K) :
    List (Nat × NodeInfo K) → List (Nat × NodeInfo K)
  | [] => [a]
  | b :: l => if a.1 ≤ b.1 then a :: b :: l else b :: insertPending a l

/-- The sort of `pending` by index (`pending.sort_by_key(|n| n.0)`). -/
def sortPending {K : Type} : List (Nat × NodeInfo K) → List (Nat × NodeInfo K)
  | [] => []
  | a :: l => insertPending a (sortPending l)

/-- The `drain_filter` scan over the sorted `pending`: remove and emit,
in scan order, every entry whose index equals the advancing `expected`;
return the emitted entries, the kept entries, and the final `expected`. -/
def drainFilterStep {K : Type} (exp : Nat) :
    List (Nat × NodeInfo K) →
    List (Nat × NodeInfo K) × List (Nat × NodeInfo K) × Nat
  | [] => ([], [], exp)
  | a :: l =>
    if a.1 = exp then
      let r := drainFilterStep (exp + 1) l
      (a :: r.1, r.2.1, r.2.2)
    else
      let r := drainFilterStep exp l
      (r.1, a :: r.2.1, r.2.2)

/-- One arrival at the receive loop of `ordered_recv`: indices above
`expected` are buffered; a match is written and followed by the
sort-and-drain scan of `pending`; an index below `expected` hits the
protocol-violation branch, modelled as an error. -/
def ordStep {K : Type} (st : OrdState K) (a : Nat × NodeInfo K) :
    Except Unit (OrdState K) :=
  if st.expected < a.1 then
    .ok ⟨st.pending ++ [a], st.expected, st.log⟩
  else if a.1 = st.expected then
    let r := drainFilterStep (st.expected + 1) (sortPending st.pending)
    .ok ⟨r.2.1, r.2.2, st.log ++ a :: r.1⟩
  else
    .error ()

/-- `ordered_recv`: consume the whole arrival sequence, returning the
write log and the final `expected` (the session's node count), or the
protocol-violation outcome. -/
def ordered_recv {K : Type} (arrivals : List (Nat × NodeInfo K)) :
    Except Unit (List (Nat × NodeInfo K) × Nat) := do
  let st ← arrivals.foldlM ordStep ⟨[], 0, []⟩
  pure (st.log, st.expected)

/-- `encode_graph` (concurrent mode): run the ordering stage, writing
each flushed record through the codec, then append the trailer built
from the final `expected` and the accumulated edge count. -/
def encode_graph {K : Type} (arrivals : List (Nat × NodeInfo K)) :
    Except Unit (List (EncTok K)) :=
  match ordered_recv arrivals with
  | .error e => .error e
  | .ok (log, n) =>
    .ok (encodeList (log.map Prod.snd) ++ encode_counts n (sumEdges (log.map Prod.snd)))

theorem insertPending_perm {K : Type} (a : Nat × NodeInfo K) (l : List (Nat × NodeInfo K)) :
    List.Perm (insertPending a l) (a :: l) := by
  induction l with
  | nil => exact List.Perm.refl _
  | cons b l ih =>
    by_cases hab : a.1 ≤ b.1
    · rw [insertPending, if_pos hab]
    · rw [insertPending, if_neg hab]
      exact (List.Perm.cons b ih).trans (List.Perm.swap a b l)

theorem sortPending_perm {K : Type} (l : List (Nat × NodeInfo K)) :
    List.Perm (sortPending l) l := by
  induction l with
  | nil => exact List.Perm.refl _
  | cons a l ih =>
    exact (insertPending_perm a (sortPending l)).trans (List.Perm.cons a ih)

theorem insertPending_sorted {K : Type} (a : Nat × NodeInfo K) (l : List (Nat × NodeInfo K))
    (h : List.Pairwise (fun x y : Nat × NodeInfo K => x.1 ≤ y.1) l) :
    List.Pairwise (fun x y : Nat × NodeInfo K => x.1 ≤ y.1) (insertPending a l) := by
  induction l with
  | nil => simp [insertPending]
  | cons b l ih =>
    rw [List.pairwise_cons] at h
    by_cases hab : a.1 ≤ b.1
    · rw [insertPending, if_pos hab, List.pairwise_cons]
      refine ⟨?_, List.pairwise_cons.mpr h⟩
      intro x hx
      rcases List.mem_cons.mp hx with rfl | hx
      · exact hab
      · exact le_trans hab (h.1 x hx)
    · rw [insertPending, if_neg hab, List.pairwise_cons]
      refine ⟨?_, ih h.2⟩
      intro x hx
      rcases List.mem_cons.mp ((insertPending_perm a l).mem_iff.mp hx) with rfl | hx'
      · exact le_of_not_le hab
      · exact h.1 x hx'

theorem sortPending_sorted {K : Type} (l : List (Nat × NodeInfo K)) :
    List.Pairwise (fun x y : Nat × NodeInfo K => x.1 ≤ y.1) (sortPending l) := by
  induction l with
  | nil => simp [sortPending]
  | cons a l ih => exact insertPending_sorted a (sortPending l) ih

theorem drainFilterStep_spec {K : Type} :
    ∀ (l : List (Nat × NodeInfo K)) (exp : Nat),
      List.Pairwise (fun x y : Nat × NodeInfo K => x.1 < y.1) l →
      (∀ x ∈ l, exp ≤ x.1) →
      exp ≤ (drainFilterStep exp l).2.2 ∧
      (drainFilterStep exp l).1.map Prod.fst =
        List.range' exp ((drainFilterStep exp l).2.2 - exp) ∧
      (∀ x ∈ (drainFilterStep exp l).2.1, (drainFilterStep exp l).2.2 < x.1) ∧
      List.Perm ((drainFilterStep exp l).1 ++ (drainFilterStep exp l).2.1) l := by
  intro l
  induction l with
  | nil =>
    intro exp _ _
    simp [drainFilterStep]
  | cons a l ih =>
    intro exp hsort hlb
    rw [List.pairwise_cons] at hsort
    by_cases ha : a.1 = exp
    · simp only [drainFilterStep, if_pos ha]
      have hlb' : ∀ x ∈ l, exp + 1 ≤ x.1 := by
        intro x hx
        have := hsort.1 x hx
        omega
      obtain ⟨h1, h2, h3, h4⟩ := ih (exp + 1) hsort.2 hlb'
      refine ⟨by omega, ?_, h3, ?_⟩
      · rw [List.map_cons, h2, ha,
          show (drainFilterStep (exp + 1) l).2.2 - exp =
            ((drainFilterStep (exp + 1) l).2.2 - (exp + 1)) + 1 by omega,
          List.range'_succ]
      · rw [List.cons_append]
        exact List.Perm.cons a h4
    · simp only [drainFilterStep, if_neg ha]
      have halt : exp < a.1 :=
        lt_of_le_of_ne (hlb a (List.mem_cons_self a l)) (Ne.symm ha)
      have hlt : ∀ x ∈ l, exp < x.1 := fun x hx => lt_trans halt (hsort.1 x hx)
      obtain ⟨h1, h2, h3, h4⟩ := ih exp hsort.2 (fun x hx => le_of_lt (hlt x hx))
      have he : (drainFilterStep exp l).2.2 = exp := by
        by_contra hne
        have hmem : exp ∈ (drainFilterStep exp l).1.map Prod.fst := by
          rw [h2]
          have : exp < (drainFilterStep exp l).2.2 := lt_of_le_of_ne h1 (Ne.symm hne)
          refine List.mem_range'_1.mpr ⟨le_refl exp, ?_⟩
          omega
        obtain ⟨x, hxd, hx1⟩ := List.mem_map.mp hmem
        have hxl : x ∈ l := h4.mem_iff.mp (List.mem_append.mpr (Or.inl hxd))
        have := hlt x hxl
        omega
      refine ⟨h1, h2, ?_, ?_⟩
      · intro x hx
        rcases List.mem_cons.mp hx with rfl | hx'
        · rw [he]; exact halt
        · exact h3 x hx'
      · exact List.perm_middle.trans (List.Perm.cons a h4)

/-- The loop invariant of the ordering stage relative to the set of
arrivals processed so far: written and buffered records together are
exactly the arrivals, the written indices are `0, …, expected - 1` in
order, and every buffered index is above `expected`. -/
def OrdInv {K : Type} (done : List (Nat × NodeInfo K)) (st : OrdState K) : Prop :=
  List.Perm (st.log ++ st.pending) done ∧
  st.log.map Prod.fst = List.range st.expected ∧
  ∀ p ∈ st.pending, st.expected < p.1

theorem ordStep_inv {K : Type} (done : List (Nat × NodeInfo K)) (st : OrdState K)
    (a : Nat × NodeInfo K) (hinv : OrdInv done st)
    (hnodup : ((done ++ [a]).map Prod.fst).Nodup) :
    ∃ st', ordStep st a = .ok st' ∧ OrdInv (done ++ [a]) st' := by
  obtain ⟨hperm, hlog, hpend⟩ := hinv
  have hdonend : (done.map Prod.fst).Nodup := by
    rw [List.map_append] at hnodup
    exact (List.nodup_append.mp hnodup).1
  have hanotdone : a.1 ∉ done.map Prod.fst := by
    rw [List.map_append] at hnodup
    intro hmem
    exact (List.nodup_append.mp hnodup).2.2 hmem (by simp)
  unfold ordStep
  by_cases hgt : st.expected < a.1
  · rw [if_pos hgt]
    refine ⟨_, rfl, ?_, hlog, ?_⟩
    · rw [show st.log ++ (st.pending ++ [a]) = (st.log ++ st.pending) ++ [a] by simp]
      exact hperm.append_right [a]
    · intro p hp
      rcases List.mem_append.mp hp with hp | hp
      · exact hpend p hp
      · rw [List.mem_singleton.mp hp]; exact hgt
  · rw [if_neg hgt]
    by_cases heq : a.1 = st.expected
    · rw [if_pos heq]
      have hpnodup : (st.pending.map Prod.fst).Nodup := by
        have h5 : ((st.log ++ st.pending).map Prod.fst).Nodup :=
          (hperm.map Prod.fst).nodup_iff.mpr hdonend
        rw [List.map_append] at h5
        exact (List.nodup_append.mp h5).2.1
      have hstrict :
          List.Pairwise (fun x y : Nat × NodeInfo K => x.1 < y.1) (sortPending st.pending) := by
        have hle := sortPending_sorted st.pending
        have hsortnodup : ((sortPending st.pending).map Prod.fst).Nodup :=
          ((sortPending_perm st.pending).map Prod.fst).nodup_iff.mpr hpnodup
        have hne : List.Pairwise (fun x y : Nat × NodeInfo K => x.1 ≠ y.1)
            (sortPending st.pending) := (List.pairwise_map).mp hsortnodup
        exact (hle.and hne).imp (fun h => lt_of_le_of_ne h.1 h.2)
      have hlbs : ∀ x ∈ sortPending st.pending, st.expected + 1 ≤ x.1 := by
        intro x hx
        exact hpend x ((sortPending_perm st.pending).mem_iff.mp hx)
      obtain ⟨h1, h2, h3, h4⟩ :=
        drainFilterStep_spec (sortPending st.pending) (st.expected + 1) hstrict hlbs
      rcases hdr : drainFilterStep (st.expected + 1) (sortPending st.pending) with ⟨d, k, e⟩
      rw [hdr] at h1 h2 h3 h4
      simp only at h1 h2 h3 h4
      refine ⟨⟨k, e, st.log ++ a :: d⟩, rfl, ?_, ?_, h3⟩
      · have hk : List.Perm (d ++ k) st.pending := h4.trans (sortPending_perm st.pending)
        simp only
        rw [show (st.log ++ a :: d) ++ k = st.log ++ a :: (d ++ k) by simp]
        have e2 : List.Perm (st.log ++ a :: (d ++ k)) (st.log ++ a :: st.pending) :=
          List.Perm.append_left st.log (List.Perm.cons a hk)
        have e3 : List.Perm (st.log ++ a :: st.pending) (a :: (st.log ++ st.pending)) :=
          List.perm_middle
        have e4 : List.Perm (a :: (st.log ++ st.pending)) (a :: done) := List.Perm.cons a hperm
        have e5 : List.Perm (a :: done) (done ++ [a]) := by
          have := @List.perm_middle _ a done []
          simpa using this.symm
        exact ((e2.trans e3).trans e4).trans e5
      · simp only
        rw [List.map_append, hlog, List.map_cons, heq, h2,
          show st.expected :: List.range' (st.expected + 1) (e - (st.expected + 1)) =
            List.range' st.expected ((e - (st.expected + 1)) + 1) from
              (List.range'_succ st.expected (e - (st.expected + 1)) 1).symm,
          List.range_eq_range', List.range_eq_range']
        have happ := List.range'_append 0 st.expected ((e - (st.expected + 1)) + 1) 1
        simp only [Nat.one_mul, Nat.zero_add] at happ
        rw [happ]
        have : (e - (st.expected + 1)) + 1 + st.expected = e := by omega
        rw [this]
    · rw [if_neg heq]
      exfalso
      have hlt : a.1 < st.expected := by omega
      have h5 : a.1 ∈ st.log.map Prod.fst := by
        rw [hlog]; exact List.mem_range.mpr hlt
      obtain ⟨x, hx, hx1⟩ := List.mem_map.mp h5
      have hxd : x ∈ done := hperm.mem_iff.mp (List.mem_append.mpr (Or.inl hx))
      exact hanotdone (by rw [← hx1]; exact List.mem_map_of_mem Prod.fst hxd)

theorem foldlM_ordStep_inv {K : Type} (as : List (Nat × NodeInfo K)) :
    ∀ (done : List (Nat × NodeInfo K)) (st : OrdState K),
      ((done ++ as).map Prod.fst).Nodup → OrdInv done st →
      ∃ st', List.foldlM ordStep st as = Except.ok st' ∧ OrdInv (done ++ as) st' := by
  induction as with
  | nil =>
    intro done st _ hinv
    exact ⟨st, rfl, by simpa using hinv⟩
  | cons a as ih =>
    intro done st hnodup hinv
    have hnd1 : ((done ++ [a]).map Prod.fst).Nodup := by
      refine List.Nodup.sublist (List.Sublist.map Prod.fst ?_) hnodup
      exact List.Sublist.append (List.Sublist.refl done) ((List.nil_sublist as).cons₂ a)
    obtain ⟨st1, hstep, hinv1⟩ := ordStep_inv done st a hinv hnd1
    have hnodup' : (((done ++ [a]) ++ as).map Prod.fst).Nodup := by
      simpa [List.append_assoc] using hnodup
    obtain ⟨st', hfold, hinv'⟩ := ih (done ++ [a]) st1 hnodup' hinv1
    refine ⟨st', ?_, by simpa [List.append_assoc] using hinv'⟩
    rw [List.foldlM_cons, hstep]
    exact hfold

theorem ordered_recv_perm {K : Type} (arrivals : List (Nat × NodeInfo K)) (N : Nat)
    (hperm : List.Perm (arrivals.map Prod.fst) (List.range N)) :
    ∃ log, ordered_recv arrivals = .ok (log, N) ∧
      log.map Prod.fst = List.range N ∧ List.Perm log arrivals := by
  have hnodup : (arrivals.map Prod.fst).Nodup := hperm.nodup_iff.mpr (List.nodup_range N)
  obtain ⟨st', hfold, hinv⟩ := foldlM_ordStep_inv arrivals [] ⟨[], 0, []⟩
    (by simpa using hnodup) ⟨List.Perm.refl _, by simp, by simp⟩
  simp only [List.nil_append] at hinv
  obtain ⟨hp, hl, hpd⟩ := hinv
  have hfsts : List.Perm ((st'.log ++ st'.pending).map Prod.fst) (List.range N) :=
    (hp.map Prod.fst).trans hperm
  have hexpN : st'.expected = N := by
    by_contra hne
    rcases Nat.lt_or_ge st'.expected N with hlt | hge
    · have hmem : st'.expected ∈ (st'.log ++ st'.pending).map Prod.fst :=
        hfsts.mem_iff.mpr (List.mem_range.mpr hlt)
      rw [List.map_append] at hmem
      rcases List.mem_append.mp hmem with h | h
      · rw [hl] at h
        exact absurd (List.mem_range.mp h) (lt_irrefl _)
      · obtain ⟨x, hx, hx1⟩ := List.mem_map.mp h
        have := hpd x hx
        omega
    · have hgt : N < st'.expected := by omega
      have hmemN : N ∈ st'.log.map Prod.fst := by
        rw [hl]; exact List.mem_range.mpr hgt
      have : N ∈ List.range N := by
        refine hfsts.mem_iff.mp ?_
        rw [List.map_append]
        exact List.mem_append.mpr (Or.inl hmemN)
      exact absurd (List.mem_range.mp this) (lt_irrefl N)
  have hpendnil : st'.pending = [] := by
    have hlen : st'.log.length + st'.pending.length = N := by
      have := hfsts.length_eq
      simpa using this
    have hloglen : st'.log.length = N := by
      have := congrArg List.length hl
      simpa [hexpN] using this
    have : st'.pending.length = 0 := by omega
    exact List.length_eq_zero.mp this
  refine ⟨st'.log, ?_, by rw [hl, hexpN], ?_⟩
  · unfold ordered_recv
    rw [hfold]
    simp [hexpN]
  · have h6 := hp
    rw [hpendnil, List.append_nil] at h6
    exact h6

/-! ## Concrete data for witnesses and counterexamples -/

/-- Demo descriptor A. -/
def ndA : DepNode Nat := ⟨0, 100⟩

/-- Demo descriptor B. -/
def ndB : DepNode Nat := ⟨1, 101⟩

/-- Demo descriptor C. -/
def ndC : DepNode Nat := ⟨2, 102⟩

/-- Demo fingerprint A. -/
def fprA : Fingerprint := ⟨10, 20⟩

/-- Demo fingerprint B. -/
def fprB : Fingerprint := ⟨11, 21⟩

/-- Demo fingerprint C. -/
def fprC : Fingerprint := ⟨12, 22⟩

/-- The spec scenario: A with no edges, B with an edge to A, C with
edges to A then B, submitted in creation order. -/
def demoRecords : List (NodeInfo Nat) :=
  [⟨ndA, fprA, []⟩, ⟨ndB, fprB, [0]⟩, ⟨ndC, fprC, [0, 1]⟩]

/-- The graph the spec scenario decodes to. -/
def demoGraph : SerializedDepGraph Nat :=
  ⟨[ndA, ndB, ndC], [fprA, fprB, fprC], [(0, 0), (0, 1), (1, 3)], [0, 0, 1]⟩

/-- A sink that fails the write of record 0 with error code 7 and
succeeds afterwards. -/
def faultAt0 : Nat → Option Nat := fun i => if i = 0 then some 7 else none

/-- A stream whose trailer announces one node and five edges, while its
single record carries two edges. -/
def badFile : List (EncTok Nat) :=
  [EncTok.node ndA, EncTok.fp fprA, EncTok.seqLen 2, EncTok.seqElt 0, EncTok.seqElt 0,
   EncTok.fixedInt 1, EncTok.fixedInt 5]

/-- The graph `badFile` decodes to. -/
def badGraph : SerializedDepGraph Nat := ⟨[ndA], [fprA], [(0, 2)], [0, 0]⟩

/-- The `newtype_index!` bound of `SerializedDepNodeIndex`:
`MAX = 0x7FFF_FFFF`. -/
def SerializedDepNodeIndexMAX : Nat := 0x7FFFFFFF

/-! ## Claims -/

/-- Claim C1: round trip.  For every sequence of node records whose edge
lists reference only indices already assigned at submission time,
encoding via send and finish and decoding the resulting stream yields a
graph whose nodes, fingerprints, and per-node edge slices (via
`edge_targets_from`) equal the originals, index by index. -/
theorem claim_C1_round_trip {K : Type} (rs : List (NodeInfo K))
    (href : ∀ (i : Nat) (h : i < rs.length), ∀ e ∈ (rs.get ⟨i, h⟩).edges, e < i) :
    ∃ g : SerializedDepGraph K,
      decode (encodeFile rs) = some g ∧
      g.nodes = rs.map NodeInfo.node ∧
      g.fingerprints = rs.map NodeInfo.fingerprint ∧
      ∀ (i : Nat) (h : i < rs.length), edge_targets_from g i = (rs.get ⟨i, h⟩).edges := by
  refine ⟨buildGraph (SerializedDepGraph.empty K) rs, decode_encodeFile rs, ?_, ?_, ?_⟩
  · rw [buildGraph_spec]; simp [SerializedDepGraph.empty]
  · rw [buildGraph_spec]; simp [SerializedDepGraph.empty]
  · exact fun i h => edge_targets_buildGraph rs i h

/-- Witness for C1 at the three-record spec scenario. -/
theorem claim_C1_round_trip_witness :
    ∃ g : SerializedDepGraph Nat,
      decode (encodeFile demoRecords) = some g ∧
      g.nodes = demoRecords.map NodeInfo.node ∧
      g.fingerprints = demoRecords.map NodeInfo.fingerprint ∧
      ∀ (i : Nat) (h : i < demoRecords.length),
        edge_targets_from g i = (demoRecords.get ⟨i, h⟩).edges :=
  claim_C1_round_trip demoRecords (by decide)

/-- Claim C2: ordering stage correctness.  For every arrival sequence
whose indices are a permutation of `0, …, N-1`, `ordered_recv` hands
each record to the write callback exactly once, in strictly increasing
index order, and returns `N`, which `encode_graph` places as the
trailer's node count. -/
theorem claim_C2_ordering {K : Type} (arrivals : List (Nat × NodeInfo K)) (N : Nat)
    (hperm : List.Perm (arrivals.map Prod.fst) (List.range N)) :
    ∃ log : List (Nat × NodeInfo K),
      ordered_recv arrivals = .ok (log, N) ∧
      log.map Prod.fst = List.range N ∧
      List.Perm log arrivals ∧
      encode_graph arrivals =
        .ok (encodeList (log.map Prod.snd) ++
          encode_counts N (sumEdges (log.map Prod.snd))) := by
  obtain ⟨log, h1, h2, h3⟩ := ordered_recv_perm arrivals N hperm
  exact ⟨log, h1, h2, h3, by simp [encode_graph, h1]⟩

/-- Witness for C2 at an out-of-order three-record arrival sequence. -/
theorem claim_C2_ordering_witness :
    ∃ log : List (Nat × NodeInfo Nat),
      ordered_recv [(1, ⟨ndB, fprB, [0]⟩), (0, ⟨ndA, fprA, []⟩), (2, ⟨ndC, fprC, [0, 1]⟩)] =
        .ok (log, 3) ∧
      log.map Prod.fst = List.range 3 ∧
      List.Perm log [(1, ⟨ndB, fprB, [0]⟩), (0, ⟨ndA, fprA, []⟩), (2, ⟨ndC, fprC, [0, 1]⟩)] ∧
      encode_graph [(1, ⟨ndB, fprB, [0]⟩), (0, ⟨ndA, fprA, []⟩), (2, ⟨ndC, fprC, [0, 1]⟩)] =
        .ok (encodeList (log.map Prod.snd) ++
          encode_counts 3 (sumEdges (log.map Prod.snd))) :=
  claim_C2_ordering [(1, ⟨ndB, fprB, [0]⟩), (0, ⟨ndA, fprA, []⟩), (2, ⟨ndC, fprC, [0, 1]⟩)] 3
    (by decide)

/-- Claim C6: ordering stage protocol violation.  An arrival whose index
is strictly below the current `expected` hits the abort branch of the
receive loop; under the duplicate-free permutation precondition the
whole session completes without reaching that branch. -/
theorem claim_C6_protocol (K : Type) :
    (∀ (st : OrdState K) (a : Nat × NodeInfo K),
      a.1 < st.expected → ordStep st a = .error ()) ∧
    (∀ (arrivals : List (Nat × NodeInfo K)) (N : Nat),
      List.Perm (arrivals.map Prod.fst) (List.range N) →
      ∃ r, ordered_recv arrivals = .ok r) := by
  constructor
  · intro st a hlt
    unfold ordStep
    rw [if_neg (by omega), if_neg (by omega)]
  · intro arrivals N hperm
    obtain ⟨log, h1, _, _⟩ := ordered_recv_perm arrivals N hperm
    exact ⟨(log, N), h1⟩

/-- Witness for C6: a stale index aborts; a permutation session
succeeds. -/
theorem claim_C6_protocol_witness :
    ordStep (⟨[], 5, []⟩ : OrdState Nat) (3, ⟨ndA, fprA, []⟩) = .error () ∧
    ∃ r, ordered_recv [(0, (⟨ndA, fprA, []⟩ : NodeInfo Nat))] = .ok r :=
  ⟨(claim_C6_protocol Nat).1 ⟨[], 5, []⟩ (3, ⟨ndA, fprA, []⟩) (by decide),
   (claim_C6_protocol Nat).2 [(0, ⟨ndA, fprA, []⟩)] 1 (by decide)⟩

/-- Counterexample for C3 as stated: with a sink that fails the write
of record 0, the write of the subsequently submitted record 1 is never
attempted (`encode_node` runs only for record 0), though both sends
still return fresh indices. -/
theorem claim_C3_counterexample :
    (runSends faultAt0 (initState Nat) demoRecords).1.attempts = [0] ∧
    ¬ (1 ∈ (runSends faultAt0 (initState Nat) demoRecords).1.attempts) ∧
    (runSends faultAt0 (initState Nat) demoRecords).2 = [0, 1, 2] ∧
    (runSends faultAt0 (initState Nat) demoRecords).1.result = .err 7 := by
  decide

/-- Claim C3 (amended): after the first write failure the encoder skips
the codec write for every subsequent record, retaining the first error;
every send call, before and after the fault, still assigns and returns
a fresh sequential index. -/
theorem claim_C3_amended {K : Type} (fault : Nat → Option Nat) (st : EncoderState K)
    (nd : DepNode K) (fpr : Fingerprint) (edges : List Nat) :
    (send fault st nd fpr edges).2 = st.counter ∧
    (send fault st nd fpr edges).1.counter = st.counter + 1 ∧
    (st.result = .ok →
      (send fault st nd fpr edges).1.attempts = st.attempts ++ [st.counter]) ∧
    ∀ e, st.result = .err e →
      (send fault st nd fpr edges).1.attempts = st.attempts ∧
      (send fault st nd fpr edges).1.result = .err e := by
  refine ⟨(send_counter fault st nd fpr edges).2, (send_counter fault st nd fpr edges).1,
    ?_, ?_⟩
  · intro hok
    cases hflt : fault st.counter with
    | some e => simp [send, hok, hflt]
    | none => simp [send, hok, hflt]
  · intro e herr
    simp [send, herr]

/-- Witness for C3 (amended) at a fresh encoder and at a failed one. -/
theorem claim_C3_amended_witness :
    (send noFault (initState Nat) ndA fprA []).2 = 0 ∧
    (send noFault (initState Nat) ndA fprA []).1.attempts = [] ++ [0] ∧
    (send noFault (⟨[], 0, .err 7, 1, [0]⟩ : EncoderState Nat) ndB fprB []).1.attempts = [0] ∧
    (send noFault (⟨[], 0, .err 7, 1, [0]⟩ : EncoderState Nat) ndB fprB []).1.result = .err 7 :=
  ⟨(claim_C3_amended noFault (initState Nat) ndA fprA []).1,
   (claim_C3_amended noFault (initState Nat) ndA fprA []).2.2.1 rfl,
   ((claim_C3_amended noFault (⟨[], 0, .err 7, 1, [0]⟩ : EncoderState Nat) ndB fprB []).2.2.2
      7 rfl).1,
   ((claim_C3_amended noFault (⟨[], 0, .err 7, 1, [0]⟩ : EncoderState Nat) ndB fprB []).2.2.2
      7 rfl).2⟩

theorem drop_last_two {K : Type} (xs : List (EncTok K)) (a b : EncTok K) :
    (xs ++ [a, b]).drop ((xs ++ [a, b]).length - 2) = [a, b] := by
  have hlen : (xs ++ [a, b]).length - 2 = xs.length := by simp
  rw [hlen, List.drop_left]

/-- Claim C4: failure propagation to finish.  If a record write failed,
`finish` returns that first failure and the trailer is absent (the
stream does not end with the two fixed-width counts); if none failed,
`finish` appends the trailer and returns success. -/
theorem claim_C4_finish {K : Type} (fault : Nat → Option Nat) (rs : List (NodeInfo K)) :
    (∀ e, firstFaultIn fault 0 rs.length = some e →
      (runSends fault (initState K) rs).1.result = .err e ∧
      finish (runSends fault (initState K) rs).1 =
        (.err e, (runSends fault (initState K) rs).1.stream) ∧
      decodeTrailer (runSends fault (initState K) rs).1.stream = none) ∧
    (firstFaultIn fault 0 rs.length = none →
      finish (runSends fault (initState K) rs).1 =
        (.ok, encodeList rs ++ encode_counts rs.length (sumEdges rs))) := by
  have hres := runSends_result fault rs (initState K) rfl
  constructor
  · intro e hf
    rw [show (initState K).counter = 0 from rfl, hf] at hres
    refine ⟨hres, ?_, ?_⟩
    · unfold finish
      rw [hres]
    · apply decodeTrailer_of_recToks
      apply runSends_stream_recToks
      intro t ht
      simp [initState] at ht
  · intro hf
    rw [runSends_ok fault rs (initState K) rfl (by simpa [initState] using hf)]
    simp [finish, initState, encode_counts]

/-- Witness for C4: a faulted single-record session and a clean one. -/
theorem claim_C4_finish_witness :
    finish (runSends faultAt0 (initState Nat) demoRecords).1 =
      (.err 7, (runSends faultAt0 (initState Nat) demoRecords).1.stream) ∧
    decodeTrailer (runSends faultAt0 (initState Nat) demoRecords).1.stream = none ∧
    finish (runSends noFault (initState Nat) demoRecords).1 =
      (.ok, encodeList demoRecords ++ encode_counts 3 (sumEdges demoRecords)) :=
  ⟨((claim_C4_finish faultAt0 demoRecords).1 7 (by decide)).2.1,
   ((claim_C4_finish faultAt0 demoRecords).1 7 (by decide)).2.2,
   (claim_C4_finish noFault demoRecords).2 (by decide)⟩

/-- Claim C5: trailer accuracy.  In every fault-free session the final
two fixed-width integers of the file are exactly the number of records
encoded and the total number of edges, and the decoder's trailer read
returns exactly these two values. -/
theorem claim_C5_trailer {K : Type} (fault : Nat → Option Nat) (rs : List (NodeInfo K))
    (hf : firstFaultIn fault 0 rs.length = none) :
    ∃ file : List (EncTok K),
      finish (runSends fault (initState K) rs).1 = (.ok, file) ∧
      file.drop (file.length - 2) =
        [EncTok.fixedInt rs.length, EncTok.fixedInt (sumEdges rs)] ∧
      decodeTrailer file = some (rs.length, sumEdges rs) := by
  rw [runSends_ok fault rs (initState K) rfl (by simpa [initState] using hf)]
  refine ⟨encodeList rs ++ encode_counts rs.length (sumEdges rs), ?_, ?_, ?_⟩
  · simp [finish, initState, encode_counts]
  · exact drop_last_two (encodeList rs) (EncTok.fixedInt rs.length)
      (EncTok.fixedInt (sumEdges rs))
  · exact decodeTrailer_append_counts (encodeList rs) rs.length (sumEdges rs)

/-- Witness for C5 at the three-record spec scenario. -/
theorem claim_C5_trailer_witness :
    ∃ file : List (EncTok Nat),
      finish (runSends noFault (initState Nat) demoRecords).1 = (.ok, file) ∧
      file.drop (file.length - 2) =
        [EncTok.fixedInt demoRecords.length, EncTok.fixedInt (sumEdges demoRecords)] ∧
      decodeTrailer file = some (demoRecords.length, sumEdges demoRecords) :=
  claim_C5_trailer noFault demoRecords (by decide)

/-- Counterexample for C7 as stated: a decodable stream whose trailer
announces five edges while its single record stores two, so the decoded
graph has `edge_list_data.length = 2 ≠ 5 = edge_count`; decode performs
no consistency check against the trailer's edge count. -/
theorem claim_C7_counterexample :
    decodeTrailer badFile = some (1, 5) ∧
    decode badFile = some badGraph ∧
    badGraph.edge_list_data.length = 2 ∧
    ¬ (badGraph.edge_list_data.length = 5) := by
  decide

/-- Claim C7 (amended): every graph returned by a successful decode has
`edge_list_indices.length = node_count`, offsets monotone and
contiguous (first start 0, each start equal to the previous end, start
at most end, last end equal to `edge_list_data.length`), and
`edge_targets_from i` equal to the recorded subslice; the equality
`edge_list_data.length = edge_count` additionally holds for every file
produced by a successful encoding session, while an arbitrary decodable
stream may violate it since the trailer's edge count is never checked. -/
theorem claim_C7_amended {K : Type} (data : List (EncTok K)) (nc ec : Nat)
    (g : SerializedDepGraph K)
    (htr : decodeTrailer data = some (nc, ec))
    (hdec : decode data = some g) :
    g.edge_list_indices.length = nc ∧
    g.nodes.length = nc ∧
    g.fingerprints.length = nc ∧
    (0 < nc → (g.edge_list_indices.getD 0 (0, 0)).1 = 0) ∧
    (∀ i, i + 1 < nc →
      (g.edge_list_indices.getD (i + 1) (0, 0)).1 = (g.edge_list_indices.getD i (0, 0)).2) ∧
    (∀ i, i < nc →
      (g.edge_list_indices.getD i (0, 0)).1 ≤ (g.edge_list_indices.getD i (0, 0)).2) ∧
    (0 < nc → (g.edge_list_indices.getD (nc - 1) (0, 0)).2 = g.edge_list_data.length) ∧
    (∀ i, edge_targets_from g i =
      (g.edge_list_data.drop ((g.edge_list_indices.getD i (0, 0)).1)).take
        ((g.edge_list_indices.getD i (0, 0)).2 - (g.edge_list_indices.getD i (0, 0)).1)) ∧
    (∀ rs : List (NodeInfo K), data = encodeFile rs → g.edge_list_data.length = ec) := by
  have hrecs : decodeRecords nc data (SerializedDepGraph.empty K) = some g := by
    unfold decode at hdec
    rw [htr] at hdec
    exact hdec
  obtain ⟨rs, hlen, hg⟩ := decodeRecords_inv nc data _ g hrecs
  have hslice : ∀ i, edge_targets_from g i =
      (g.edge_list_data.drop ((g.edge_list_indices.getD i (0, 0)).1)).take
        ((g.edge_list_indices.getD i (0, 0)).2 - (g.edge_list_indices.getD i (0, 0)).1) :=
    fun i => rfl
  have hencoder : ∀ rs' : List (NodeInfo K),
      data = encodeFile rs' → g.edge_list_data.length = ec := by
    intro rs' hdata
    have hdec' : decode data = some (buildGraph (SerializedDepGraph.empty K) rs') := by
      rw [hdata]
      exact decode_encodeFile rs'
    have hgg : g = buildGraph (SerializedDepGraph.empty K) rs' :=
      Option.some.inj (hdec.symm.trans hdec')
    have hec : ec = sumEdges rs' := by
      have h10 := htr
      rw [hdata, encodeFile_eq, decodeTrailer_append_counts] at h10
      exact ((Prod.mk.injEq _ _ _ _).mp (Option.some.inj h10)).2.symm
    rw [hgg, buildGraph_spec, hec]
    simp [SerializedDepGraph.empty, edgesJoin_length]
  subst hg
  subst hlen
  rw [buildGraph_spec]
  simp only [SerializedDepGraph.empty, List.nil_append, List.length_nil]
  refine ⟨edgeOffsets_length 0 rs, by simp, by simp, ?_, ?_, ?_, ?_, ?_, ?_⟩
  · intro h0
    rw [edgeOffsets_getD rs 0 0 h0]
    simp [sumEdges]
  · intro i hi
    rw [edgeOffsets_getD rs 0 (i + 1) hi, edgeOffsets_getD rs 0 i (by omega)]
  · intro i hi
    rw [edgeOffsets_getD rs 0 i hi]
    simp only [Nat.zero_add]
    rw [sumEdges_take_succ rs i hi]
    omega
  · intro h0
    rw [edgeOffsets_getD rs 0 (rs.length - 1) (by omega),
      show rs.length - 1 + 1 = rs.length by omega, List.take_length, edgesJoin_length]
    simp
  · intro i
    have h11 := hslice i
    rw [buildGraph_spec] at h11
    simpa [SerializedDepGraph.empty] using h11
  · intro rs' hdata
    have h12 := hencoder rs' hdata
    rw [buildGraph_spec] at h12
    simpa [SerializedDepGraph.empty] using h12

/-- Witness for C7 (amended) at the encoder-produced spec scenario
file. -/
theorem claim_C7_amended_witness :
    demoGraph.edge_list_indices.length = 3 ∧ demoGraph.edge_list_data.length = 3 :=
  ⟨(claim_C7_amended (encodeFile demoRecords) 3 3 demoGraph (by decide) (by decide)).1,
   (claim_C7_amended (encodeFile demoRecords) 3 3 demoGraph (by decide)
      (by decide)).2.2.2.2.2.2.2.2 demoRecords rfl⟩

/-- Claim C8: concrete scenario.  Encoding A (no edges), B (edge to A),
C (edges to A then B) in creation order assigns indices 0, 1, 2, and
decoding yields offset pairs `[(0,0), (0,1), (1,3)]`, flat edge data
`[0, 0, 1]`, and `edge_targets_from` at C equal to `[0, 1]`. -/
theorem claim_C8_scenario :
    (runSends noFault (initState Nat) demoRecords).2 = [0, 1, 2] ∧
    decode (encodeFile demoRecords) = some demoGraph ∧
    demoGraph.edge_list_indices = [(0, 0), (0, 1), (1, 3)] ∧
    demoGraph.edge_list_data = [0, 0, 1] ∧
    edge_targets_from demoGraph 2 = [0, 1] := by
  decide

/-- Claim C9: empty graph.  A session with zero send calls followed by
finish produces exactly the two-integer trailer `(0, 0)`, and decoding
that file succeeds with four empty containers. -/
theorem claim_C9_empty (K : Type) :
    encodeFile ([] : List (NodeInfo K)) = encode_counts 0 0 ∧
    decodeTrailer (encodeFile ([] : List (NodeInfo K))) = some (0, 0) ∧
    decode (encodeFile ([] : List (NodeInfo K))) = some (SerializedDepGraph.empty K) :=
  ⟨rfl, rfl, rfl⟩

/-- Witness for C9 at the concrete kind type. -/
theorem claim_C9_empty_witness :
    decode (encodeFile ([] : List (NodeInfo Nat))) = some (SerializedDepGraph.empty Nat) :=
  (claim_C9_empty Nat).2.2

/-- Claim C10: index width limit.  The maximum serialized index is
`0x7FFFFFFF = 2^31 - 1`, so exactly one top bit of the 32-bit index is
unused (the bound exceeds `2^30`, contradicting a two-bit reserve), and
a session of more than `2^31` nodes would need an index beyond the
bound. -/
theorem claim_C10_index_width :
    SerializedDepNodeIndexMAX = 2 ^ 31 - 1 ∧
    2 ^ 30 ≤ SerializedDepNodeIndexMAX ∧
    (∀ n : Nat, n ≤ SerializedDepNodeIndexMAX ↔ n < 2 ^ 31) ∧
    (∀ n : Nat, 2 ^ 31 < n → ¬ (n - 1 ≤ SerializedDepNodeIndexMAX)) := by
  have h31 : (2 : Nat) ^ 31 = 2147483648 := by norm_num
  have h30 : (2 : Nat) ^ 30 = 1073741824 := by norm_num
  refine ⟨?_, ?_, ?_, ?_⟩
  · rw [h31]
    norm_num [SerializedDepNodeIndexMAX]
  · rw [h30]
    norm_num [SerializedDepNodeIndexMAX]
  · intro n
    rw [h31]
    unfold SerializedDepNodeIndexMAX
    omega
  · intro n h
    rw [h31] at h
    unfold SerializedDepNodeIndexMAX
    omega

/-- Witness for C10 at concrete indices. -/
theorem claim_C10_index_width_witness :
    ((5 : Nat) ≤ SerializedDepNodeIndexMAX ↔ (5 : Nat) < 2 ^ 31) ∧
    ¬ ((2 ^ 31 + 2 - 1 : Nat) ≤ SerializedDepNodeIndexMAX) :=
  ⟨claim_C10_index_width.2.2.1 5,
   claim_C10_index_width.2.2.2 (2 ^ 31 + 2) (by norm_num)⟩
